import Mathlib

set_option maxRecDepth 8000

/-!
Verification of the card-content pipeline of `src/main.py` (Anki_Extractor).

The embedding works over `List Char` / `String`. Character classes model the
ASCII behaviour of Python's `re` module and string methods (`\s`, `\d`,
`[A-Za-z]`, `\w`, `str.strip`, `str.lower`); the repository's inputs are
ASCII word lists and prompts, and every claim is about that fragment.
Network calls (`requests.get`, the OpenRouter completion call) and operator
input are modelled as explicit oracles passed to the embedded functions.
-/

namespace AnkiExtractor

/-- Space predicate: the ASCII characters matched by Python `str.strip()`
and the regex class `\s` (space, tab, newline, carriage return, vertical
tab, form feed). -/
def isSpaceB (c : Char) : Bool :=
  decide (c.toNat = 32 ∨ c.toNat = 9 ∨ c.toNat = 10 ∨ c.toNat = 13 ∨
    c.toNat = 11 ∨ c.toNat = 12)

/-- Digit predicate: the regex class `[0-9]` (`\d` on ASCII text), and
Python `str.isdigit` on ASCII text. -/
def isAsciiDigitB (c : Char) : Bool := decide (48 ≤ c.toNat ∧ c.toNat ≤ 57)

/-- Letter predicate: the regex class `[A-Za-z]` of `re.fullmatch(r'[A-Za-z]+', ...)`. -/
def isAsciiAlphaB (c : Char) : Bool :=
  decide ((65 ≤ c.toNat ∧ c.toNat ≤ 90) ∨ (97 ≤ c.toNat ∧ c.toNat ≤ 122))

/-- Word character: the regex class `\w` on ASCII text (letters, digits,
underscore), deciding the word boundaries `\b` of `find_contexts`. -/
def wordCharB (c : Char) : Bool :=
  isAsciiAlphaB c || isAsciiDigitB c || decide (c.toNat = 95)

/-- Lower-casing of one character, Python `str.lower()` on ASCII text. -/
def lowerC (c : Char) : Char :=
  if 65 ≤ c.toNat ∧ c.toNat ≤ 90 then Char.ofNat (c.toNat + 32) else c

/-- Case-insensitive character comparison, the effect of `re.IGNORECASE` on
ASCII text: equal outright, or the same letter in the two cases (ASCII upper
and lower case differ by 32). -/
def ciCharEq (c d : Char) : Bool :=
  c == d || (isAsciiAlphaB c && isAsciiAlphaB d &&
    (decide (c.toNat + 32 = d.toNat) || decide (d.toNat + 32 = c.toNat)))

/-- Case-insensitive list comparison (pointwise `ciCharEq`, equal lengths). -/
def ciEqL : List Char → List Char → Bool
  | [], [] => true
  | c :: cs, d :: ds => ciCharEq c d && ciEqL cs ds
  | _, _ => false

/-- Python `str.strip()`: drop the longest all-whitespace prefix and suffix. -/
def trimL (s : List Char) : List Char :=
  ((s.dropWhile isSpaceB).reverse.dropWhile isSpaceB).reverse

/-- Python `text.replace('\n', ' ')` of `find_contexts`. -/
def replNl (s : List Char) : List Char :=
  s.map (fun c => if c == '\n' then ' ' else c)

/-- Python slice `s[a:b]` for `0 ≤ a ≤ b`, clipped at the end of the list
(Python clips an over-long upper bound the same way `take` does). -/
def sliceClip (s : List Char) (a b : Nat) : List Char := (s.drop a).take (b - a)

/-- A case-insensitive whole-word match of `w` inside `s` at position `i`:
the pattern `rf'\b{re.escape(word)}\b'` with `re.IGNORECASE` of
`find_contexts` matches at `i`. The characters of `s` from `i` on compare
case-insensitively with `w`, and each side of the occurrence is the string
boundary or a non-word character (for a fully alphabetic `w` both `\b`
boundaries constrain only the text side). -/
def MatchAt (s w : List Char) (i : Nat) : Prop :=
  ciEqL ((s.drop i).take w.length) w = true ∧
  (i = 0 ∨ wordCharB (s.getD (i - 1) ' ') = false) ∧
  (i + w.length = s.length ∨ wordCharB (s.getD (i + w.length) ' ') = false)

instance instDecidableMatchAt (s w : List Char) (i : Nat) : Decidable (MatchAt s w i) := by
  unfold MatchAt
  infer_instance

/-- All match positions of `re.finditer` in document order. For a non-empty
all-alphabetic word, whole-word matches cannot overlap (a character between
two overlapping occurrences would be a letter, refusing the inner `\b`), so
the left-to-right non-overlapping scan of `finditer` finds exactly the
positions where `MatchAt` holds, in increasing order. -/
def matchPositions (s w : List Char) : List Nat :=
  (List.range (s.length + 1)).filter (fun i => decide (MatchAt s w i))

/-- Whether some case-insensitive whole-word match of `w` occurs inside `s`. -/
def containsWholeWordCI (s w : List Char) : Bool :=
  (List.range (s.length + 1)).any (fun i => decide (MatchAt s w i))

/-- The snippet built from the match at position `i`:
`text[max(0, m.start() - span) : m.end() + span].replace('\n', ' ').strip()`
(natural subtraction is Python's `max(0, i - span)`). -/
def snippetAt (text w : List Char) (span i : Nat) : List Char :=
  trimL (replNl (sliceClip text (i - span) (i + w.length + span)))

/-- Embedding of `find_contexts(text, word, span, max_ctx)` of `src/main.py`:
the snippets of the first `maxCtx` whole-word matches, in document order. -/
def find_contexts (text w : List Char) (span maxCtx : Nat) : List (List Char) :=
  ((matchPositions text w).take maxCtx).map (snippetAt text w span)

/-- Length (in characters) of a match of the marker pattern `\d+\.\s*` at the
head of `s`: one or more digits, a literal dot, then the longest (possibly
empty) whitespace run; `none` when the pattern does not match here. -/
def markerLen (s : List Char) : Option Nat :=
  let ds := s.takeWhile isAsciiDigitB
  let rest := s.drop ds.length
  if ds.isEmpty then none
  else if rest.headD ' ' == '.' then
    some (ds.length + 1 + ((rest.drop 1).takeWhile isSpaceB).length)
  else none

/-- Scanner of `re.split(r'^\d+\.\s*', def_text, flags=re.MULTILINE)`:
walk the text left to right; at a line start (position 0, or right after a
newline — `re.MULTILINE` makes `^` match there) where the marker pattern
matches, cut the piece collected so far and continue after the marker.
`fuel` only bounds the recursion; every step consumes at least one character,
so `fuel = s.length` never reaches the fallback arm. `acc` holds the current
piece reversed; `atStart` records whether the position is a line start. -/
def splitAux : Nat → List Char → Bool → List Char → List (List Char)
  | _, [], _, acc => [acc.reverse]
  | 0, s, _, acc => [acc.reverse ++ s]
  | fuel + 1, c :: cs, atStart, acc =>
    if atStart then
      match markerLen (c :: cs) with
      | some m =>
        acc.reverse ::
          splitAux fuel ((c :: cs).drop m) (((c :: cs).take m).getLastD ' ' == '\n') []
      | none => splitAux fuel cs (c == '\n') (c :: acc)
    else splitAux fuel cs (c == '\n') (c :: acc)

/-- The pieces of `re.split(r'^\d+\.\s*', s, flags=re.MULTILINE)` in order
(position 0 is a line start). -/
def splitMarkers (s : List Char) : List (List Char) := splitAux s.length s true []

/-- A marker (per the code: digits, a dot, then optional whitespace) starts
at position `i` of `s`, and `i` is a line start. -/
def markerAtB (s : List Char) (i : Nat) : Bool :=
  (i == 0 || s.getD (i - 1) ' ' == '\n') && (markerLen (s.drop i)).isSome

/-- No line-leading numeric-enumeration marker occurs anywhere in `s`. -/
def noMarkersB (s : List Char) : Bool :=
  (List.range (s.length + 1)).all (fun i => !markerAtB s i)

/-- A marker in the strict sense of the claim's wording — digits, a dot and
at least one whitespace character — starts at line-start position `i`. -/
def strictMarkerAtB (s : List Char) (i : Nat) : Bool :=
  (i == 0 || s.getD (i - 1) ' ' == '\n') &&
    (let t := s.drop i
     let ds := t.takeWhile isAsciiDigitB
     !ds.isEmpty && (t.getD ds.length 'x' == '.') && isSpaceB (t.getD (ds.length + 1) 'x'))

/-- No strict (whitespace-mandatory) marker occurs anywhere in `s`. -/
def noStrictMarkersB (s : List Char) : Bool :=
  (List.range (s.length + 1)).all (fun i => !strictMarkerAtB s i)

/-- Python `label.strip('() ')`: drop the characters `(`, `)` and space from
both ends. -/
def stripParenSpace (s : List Char) : List Char :=
  ((s.dropWhile (fun c => c == '(' || c == ')' || c == ' ')).reverse.dropWhile
      (fun c => c == '(' || c == ')' || c == ' ')).reverse

/-- Embedding of `parse_definitions(def_text, word)` of `src/main.py`:
split on the enumeration markers, strip each piece, keep the non-empty ones;
with more than one item, build one `(labelled word, definition)` pair per
item (pre-colon text becomes a parenthesised label, else `sense i`,
1-based); otherwise return the single pair with the text unchanged. -/
def parse_definitions (defText w : List Char) : List (List Char × List Char) :=
  let items := ((splitMarkers defText).map trimL).filter (fun s => !s.isEmpty)
  if 1 < items.length then
    items.enum.map (fun p =>
      if p.2.contains ':' then
        let pre := p.2.takeWhile (fun c => c != ':')
        let post := p.2.drop (pre.length + 1)
        (w ++ (" (".toList) ++ stripParenSpace pre ++ [')'], trimL post)
      else
        (w ++ (" (sense ".toList) ++ Nat.toDigits 10 (p.1 + 1) ++ [')'], trimL p.2))
  else [(w, defText)]

/-- Marker shape: `m` is a whole match of `\d+\.\s*` — a non-empty digit
run, a dot, then whitespace only (stated from the amended claim's words,
to compare with what `splitMarkers` removes from the text). -/
def IsMarkerB (m : List Char) : Bool :=
  let ds := m.takeWhile isAsciiDigitB
  !ds.isEmpty && ((m.drop ds.length).headD 'x' == '.') &&
    (m.drop (ds.length + 1)).all isSpaceB

/-- Re-interleave split pieces with the marker texts that separated them:
`joinMP [p0, p1, ..., pn] [m1, ..., mn] = p0 ++ m1 ++ p1 ++ ... ++ mn ++ pn`
(and the empty list on length-mismatched arguments). -/
def joinMP (ps ms : List (List Char)) : List Char :=
  match ms, ps with
  | [], _ => ps.headD []
  | m :: ms', p :: ps' => p ++ (m ++ joinMP ps' ms')
  | _ :: _, [] => []

/-- First-occurrence de-duplication, the embedding of
`list(OrderedDict.fromkeys(seq))` (`dedupe` in `src/main.py`): `seen` holds
the elements already emitted. -/
def dedupeGo {α : Type _} [DecidableEq α] : List α → List α → List α
  | [], _ => []
  | x :: xs, seen => if x ∈ seen then dedupeGo xs seen else x :: dedupeGo xs (x :: seen)

/-- Embedding of `dedupe(seq)` of `src/main.py`. -/
def dedupe {α : Type _} [DecidableEq α] (l : List α) : List α := dedupeGo l []

/-- Specification-side de-duplication, stated from the claim's words: keep
each first occurrence, drop every later duplicate, preserving order. -/
def dropLaterDuplicates {α : Type _} [DecidableEq α] : List α → List α
  | [] => []
  | x :: xs => x :: dropLaterDuplicates (xs.filter (fun y => y != x))
termination_by l => l.length
decreasing_by
  simp only [List.length_cons]
  exact Nat.lt_succ_of_le (List.length_filter_le _ _)

/-- The test `re.fullmatch(r'[A-Za-z]+', w)`: non-empty and all letters. -/
def isWordTokB (t : List Char) : Bool := !t.isEmpty && t.all isAsciiAlphaB

/-- Embedding of the word-list selection of `run_cli`:
`dedupe([w.strip() for w in words if re.fullmatch(r'[A-Za-z]+', w.strip())])`. -/
def select_words (lines : List (List Char)) : List (List Char) :=
  dedupe ((lines.filter (fun w => isWordTokB (trimL w))).map trimL)

/-- An output row of the CSV writer: `(front, back)` of one card. -/
def toRow (e : String × String × String) : List String := [e.1, e.2.1]

/-- Embedding of `write_anki(cards)` of `src/main.py`. A written file is
modelled as its list of rows (`csv.writer(...).writerows`); `none` means the
file is not opened at all. Entries carry the card type string used by the
code, `'b'` for basic and `'br'` for basic-and-reversed. -/
def write_anki (cards : List (String × String × String)) :
    Option (List (List String)) × Option (List (List String)) :=
  let basics := (cards.filter (fun e => e.2.2 == "b")).map toRow
  let revs := (cards.filter (fun e => e.2.2 == "br")).map toRow
  (if basics = [] then none else some ([["front", "back"]] ++ basics),
   if revs = [] then none else some ([["front", "back"]] ++ revs))

/-- Outcome of one dictionary-lookup attempt of `fetch_definitions`:
either the whole `try` body raises (`requests.get`, parsing, ...), or a
response arrives with a status code and the list of definition blocks its
parse would yield (`soup.find_all('div', class_="def ddef_d db")`, only
consulted on status 200). -/
inductive FetchOutcome
  | exc : FetchOutcome
  | resp : Nat → List String → FetchOutcome
deriving DecidableEq

/-- Loop body of `fetch_definitions`: `fuel` counts the remaining attempts of
`for _ in range(retries)`, `i` the index of the current attempt presented to
the oracle. Returns the resulting definition list and the trace of attempts,
each with the seconds slept right after it (`time.sleep(1)` sits only in the
`except` arm; a non-200 status or an empty parse falls through with no
sleep). -/
def fetchAux (oracle : Nat → FetchOutcome) :
    Nat → Nat → List String × List (FetchOutcome × Nat)
  | 0, _ => ([], [])
  | fuel + 1, i =>
    match oracle i with
    | FetchOutcome.exc =>
      let r := fetchAux oracle fuel (i + 1)
      (r.1, (FetchOutcome.exc, 1) :: r.2)
    | FetchOutcome.resp st ds =>
      if st = 200 ∧ ds ≠ [] then (ds, [(FetchOutcome.resp st ds, 0)])
      else
        let r := fetchAux oracle fuel (i + 1)
        (r.1, (FetchOutcome.resp st ds, 0) :: r.2)

/-- Embedding of `fetch_definitions(word, retries, timeout)` of `src/main.py`
with the network abstracted as an oracle from attempt index to outcome.
The word and timeout do not influence the control flow. -/
def fetch_definitions (oracle : Nat → FetchOutcome) (retries : Nat) :
    List String × List (FetchOutcome × Nat) :=
  fetchAux oracle retries 0

/-- Specification-side result of the retry loop, stated from the claim's
words: the first successful (status 200, non-empty parse) attempt's
definition list within the retry bound, else the empty list. -/
def firstSuccess (oracle : Nat → FetchOutcome) : Nat → Nat → List String
  | 0, _ => []
  | fuel + 1, i =>
    match oracle i with
    | FetchOutcome.exc => firstSuccess oracle fuel (i + 1)
    | FetchOutcome.resp st ds =>
      if st = 200 ∧ ds ≠ [] then ds else firstSuccess oracle fuel (i + 1)

/-- An attempt that yields no definitions: an exception, a non-200 status,
or a parse with zero definition blocks. -/
def attemptFailedB : FetchOutcome → Bool
  | FetchOutcome.exc => true
  | FetchOutcome.resp st ds => decide (st ≠ 200 ∨ ds = [])

/-- A transient failure in the claim's sense: an exception or a non-success
status. -/
def transientB : FetchOutcome → Bool
  | FetchOutcome.exc => true
  | FetchOutcome.resp st _ => decide (st ≠ 200)

/-- The claim's delay discipline over an attempt trace: every attempt that
failed transiently and is followed by another attempt is followed by a
one-second delay. -/
def delayOkB : List (FetchOutcome × Nat) → Bool
  | [] => true
  | [_] => true
  | e :: rest => (!transientB e.1 || e.2 == 1) && delayOkB rest

/-- Python `str.strip()` on a `String`. -/
def trimS (s : String) : String := (trimL s.toList).asString

/-- Python `str.lower()` on a `String` (ASCII). -/
def lowerS (s : String) : String := (s.toList.map lowerC).asString

/-- Python `choice.isdigit()` on ASCII text: non-empty, digits only. -/
def isNatStrB (s : String) : Bool := !s.toList.isEmpty && s.toList.all isAsciiDigitB

/-- Python `int(choice)` for an all-digit string. -/
def digitsToNat (l : List Char) : Nat := l.foldl (fun a c => 10 * a + (c.toNat - 48)) 0

/-- Association-list lookup, the membership test and access `w in d`, `d[w]`
of a Python dict restricted to lookup. -/
def lookupA : List (String × String) → String → Option String
  | [], _ => none
  | p :: r, w => if p.1 = w then some p.2 else lookupA r w

/-- The external collaborators of the console loop, abstracted: the
dictionary scrape result per word, the LLM definition per word (context
folded in) and the LLM example per word and definition. -/
structure CliOracles where
  fetch : String → List String
  llmDef : String → String
  llmEx : String → String → String

/-- Observable console events of one `run_cli` iteration: prints and
prompts, each prompt carrying the operator's raw response. -/
inductive CliEvent
  | printWord : String → CliEvent
  | printDef : Nat → String → CliEvent
  | promptDef : String → String → CliEvent
  | printMsg : String → CliEvent
  | printExample : String → CliEvent
  | promptCard : String → String → CliEvent
deriving DecidableEq

/-- The separator joining definition and example on a card's back. -/
def SEP : String := "<br><br>"

/-- Tail of one `run_cli` iteration once a definition `d` is fixed: generate
the example, prompt for the card type (`input(...).lower()`, no strip);
`'n'` discards, anything else appends a card, `'br'` exactly for `'r'`.
Returns (card made, word skipped, events, next input index). -/
def stepExample (orc : CliOracles) (inputs : Nat → String) (k : Nat) (w d : String)
    (evs : List CliEvent) :
    Option (String × String × String) × Option String × List CliEvent × Nat :=
  let ex := orc.llmEx w d
  let resp := inputs k
  let card := lowerS resp
  let evs' := evs ++ [CliEvent.printExample ex, CliEvent.promptCard w resp]
  if card = "n" then (none, none, evs', k + 1)
  else (some (w, d ++ SEP ++ ex, if card = "r" then "br" else "b"), none, evs', k + 1)

/-- One iteration of the `for w in words` loop of `run_cli`, with the
operator's responses as an input stream indexed by `k`. With a pre-generated
definition the definition prompt is skipped; otherwise the scrape runs, an
LLM definition substitutes for an empty scrape, and the response to
`"pick #, 'l' for llm def, 's' skip"` (lower-cased and stripped) selects:
`'s'` records the word as skipped, `'l'` asks the LLM, a digit within range
picks by ordinal, and anything else prints `"bad choice"` and ends the
iteration with the word neither carded nor recorded as skipped. -/
def processWord (orc : CliOracles) (pregen : List (String × String))
    (inputs : Nat → String) (k : Nat) (w : String) :
    Option (String × String × String) × Option String × List CliEvent × Nat :=
  if !pregen.isEmpty && (lookupA pregen w).isSome then
    let d := (lookupA pregen w).getD ""
    stepExample orc inputs k w d [CliEvent.printWord w]
  else
    let fetched := orc.fetch w
    let defs := if fetched.isEmpty then [orc.llmDef w] else fetched
    let resp := inputs k
    let choice := trimS (lowerS resp)
    let evs := [CliEvent.printWord w] ++
      (defs.enum.map (fun p => CliEvent.printDef (p.1 + 1) p.2)) ++
      [CliEvent.promptDef w resp]
    if choice = "s" then (none, some w, evs, k + 1)
    else if choice = "l" then stepExample orc inputs (k + 1) w (orc.llmDef w) evs
    else if isNatStrB choice ∧ 1 ≤ digitsToNat choice.toList ∧
        digitsToNat choice.toList ≤ defs.length then
      stepExample orc inputs (k + 1) w (defs.getD (digitsToNat choice.toList - 1) "") evs
    else (none, none, evs ++ [CliEvent.printMsg "bad choice"], k + 1)

/-- The whole `for w in words` loop of `run_cli`: accumulated cards, skipped
words and events across the word list. -/
def runWords (orc : CliOracles) (pregen : List (String × String))
    (inputs : Nat → String) :
    List String → Nat → List (String × String × String) × List String × List CliEvent
  | [], _ => ([], [], [])
  | w :: ws, k =>
    let r := processWord orc pregen inputs k w
    let rest := runWords orc pregen inputs ws r.2.2.2
    (r.1.toList ++ rest.1, r.2.1.toList ++ rest.2.1, r.2.2.1 ++ rest.2.2)

/-- Count of definition prompts issued for word `w` in an event list. -/
def countDefPrompts (w : String) : List CliEvent → Nat
  | [] => 0
  | CliEvent.promptDef w' _ :: rest =>
    (if w' = w then 1 else 0) + countDefPrompts w rest
  | _ :: rest => countDefPrompts w rest

/-- The example-prompt template of `load_cfg` (the `llm_example` fallback),
first piece: up to the substituted `{word}`. -/
def EX_A : List Char := "You are to provide a simple example sentence using '".toList

/-- Example-prompt template, second piece: between `{word}` and `{definition}`. -/
def EX_B : List Char := "' for an Anki vocab list. The definition is: '".toList

/-- Example-prompt template, third piece: between `{definition}` and `{context}`. -/
def EX_C : List Char :=
  ("'. Write one natural, concise and simple example sentence that aligns with " ++
   "this specific meaning. Do not include any other words in the sentence which " ++
   "may be non-trivial. React only with the sentence. If context is provided, " ++
   "consider it: ").toList

/-- The instruction `gen_example` sends: the fixed template with `word`,
`definition` and `context` substituted (`EX_PARAMS['prompt'].format(...)`). -/
def examplePromptL (w d c : List Char) : List Char :=
  EX_A ++ w ++ EX_B ++ d ++ EX_C ++ c

/-- Embedding of `gen_example(word, definition, ctx)` of `src/main.py`, the
completion endpoint abstracted as an oracle from prompt to completion text.
`llm_call` strips the completion (`['content'].strip()`) and `gen_example`
returns it unchanged; `ctx or ''` substitutes the empty string for an absent
context. -/
def gen_example (llm : List Char → List Char) (w d : List Char) (ctx : Option (List Char)) :
    List Char :=
  trimL (llm (examplePromptL w d (ctx.getD [])))

/-- Substring occurrence test (contiguous), used to state what the
instruction text does and does not contain. -/
def infixOfB (needle hay : List Char) : Bool :=
  (List.range (hay.length + 1)).any (fun i => (hay.drop i).take needle.length == needle)

/-- The definition text enumerates multiple senses: splitting it the way
`parse_definitions` does yields more than one non-empty segment. -/
def enumMultiSenseB (d : List Char) : Bool :=
  decide (1 < (((splitMarkers d).map trimL).filter (fun s => !s.isEmpty)).length)

/-- Python dict insertion `m[k] = v`: overwrite in place when the key is
present, else append (dicts preserve insertion order). -/
def dinsert (m : List (String × String)) (k v : String) : List (String × String) :=
  if m.any (fun p => p.1 == k) then m.map (fun p => if p.1 == k then (k, v) else p)
  else m ++ [(k, v)]

/-- The results mapping of `pregen_definitions` built by inserting each
word's generated definition in the order results complete. -/
def buildDefs (g : String → String) (order : List String) : List (String × String) :=
  order.foldl (fun m w => dinsert m w (g w)) []

/-- Embedding of `pregen_definitions(words, corpus_text)` of `src/main.py`,
modelled (as the claim directs) as a map of the per-word definition
generation over the word list: `executor.map(gen_def, words)` yields one
`(word, definition)` pair per word and the dict collects them. -/
def pregen_definitions (g : String → String) (words : List String) :
    List (String × String) :=
  buildDefs g words

/-! ## Generic list lemmas -/

theorem dropLater_cons {α : Type _} [DecidableEq α] (x : α) (xs : List α) :
    dropLaterDuplicates (x :: xs) = x :: dropLaterDuplicates (xs.filter (fun y => y != x)) := by
  rw [dropLaterDuplicates]

theorem dedupeGo_eq_dropLater {α : Type _} [DecidableEq α] :
    ∀ (l seen : List α), dedupeGo l seen = dropLaterDuplicates (l.filter (fun y => decide (y ∉ seen)))
  | [], seen => by
    rw [List.filter_nil, dedupeGo, dropLaterDuplicates]
  | x :: xs, seen => by
    by_cases hx : x ∈ seen
    · have hfc : (x :: xs).filter (fun y => decide (y ∉ seen)) =
          xs.filter (fun y => decide (y ∉ seen)) := by
        simp [List.filter_cons, hx]
      rw [dedupeGo, if_pos hx, hfc]
      exact dedupeGo_eq_dropLater xs seen
    · have hfc : (x :: xs).filter (fun y => decide (y ∉ seen)) =
          x :: xs.filter (fun y => decide (y ∉ seen)) := by
        simp [List.filter_cons, hx]
      rw [dedupeGo, if_neg hx, hfc, dropLater_cons, dedupeGo_eq_dropLater xs (x :: seen)]
      congr 1
      rw [List.filter_filter]
      congr 1
      apply List.filter_congr
      intro a _
      by_cases hax : a = x
      · subst hax
        simp
      · by_cases has : a ∈ seen <;> simp [hax, has, List.mem_cons]

theorem mem_dedupeGo {α : Type _} [DecidableEq α] (x : α) :
    ∀ (l seen : List α), x ∈ dedupeGo l seen ↔ x ∈ l ∧ x ∉ seen
  | [], seen => by simp [dedupeGo]
  | y :: ys, seen => by
    by_cases hy : y ∈ seen
    · rw [dedupeGo, if_pos hy, mem_dedupeGo x ys seen]
      constructor
      · rintro ⟨h1, h2⟩
        exact ⟨List.mem_cons_of_mem _ h1, h2⟩
      · rintro ⟨h1, h2⟩
        rcases List.mem_cons.mp h1 with rfl | h1
        · exact absurd hy h2
        · exact ⟨h1, h2⟩
    · rw [dedupeGo, if_neg hy]
      constructor
      · intro hx
        rcases List.mem_cons.mp hx with rfl | hx
        · exact ⟨List.mem_cons_self _ _, hy⟩
        · obtain ⟨h1, h2⟩ := (mem_dedupeGo x ys (y :: seen)).mp hx
          exact ⟨List.mem_cons_of_mem _ h1, fun hs => h2 (List.mem_cons_of_mem _ hs)⟩
      · rintro ⟨h1, h2⟩
        by_cases hxy : x = y
        · exact hxy ▸ List.mem_cons_self _ _
        · rcases List.mem_cons.mp h1 with rfl | h1
          · exact absurd rfl hxy
          · refine List.mem_cons_of_mem _ ((mem_dedupeGo x ys (y :: seen)).mpr ⟨h1, ?_⟩)
            intro hs
            rcases List.mem_cons.mp hs with h | h
            · exact hxy h
            · exact h2 h

theorem nodup_dedupeGo {α : Type _} [DecidableEq α] :
    ∀ (l seen : List α), (dedupeGo l seen).Nodup
  | [], _ => List.nodup_nil
  | y :: ys, seen => by
    by_cases hy : y ∈ seen
    · rw [dedupeGo, if_pos hy]
      exact nodup_dedupeGo ys seen
    · rw [dedupeGo, if_neg hy]
      refine List.nodup_cons.mpr ⟨fun hmem => ?_, nodup_dedupeGo ys (y :: seen)⟩
      exact ((mem_dedupeGo y ys (y :: seen)).mp hmem).2 (List.mem_cons_self y seen)

theorem dedupe_eq_dropLater {α : Type _} [DecidableEq α] (l : List α) :
    dedupe l = dropLaterDuplicates l := by
  rw [dedupe, dedupeGo_eq_dropLater]
  congr 1
  apply List.filter_eq_self.mpr
  intro a _
  simp

theorem mem_dedupe {α : Type _} [DecidableEq α] (x : α) (l : List α) :
    x ∈ dedupe l ↔ x ∈ l := by
  rw [dedupe, mem_dedupeGo]
  simp

/-! ## Claim C4: word-list loading -/

/-- Claim C4 (confirmed): a line is selected as a Word iff it is non-empty
after trimming and all-alphabetic; later duplicates (case-sensitive exact
equality) are dropped and first occurrences keep their order; `"Apple"` and
`"apple"` are kept as distinct Words. -/
theorem C4_wordlist_loading (lines : List (List Char)) :
    select_words lines =
      dropLaterDuplicates ((lines.filter (fun w => isWordTokB (trimL w))).map trimL) ∧
    (∀ t, t ∈ select_words lines ↔ ∃ l ∈ lines, trimL l = t ∧ isWordTokB t = true) ∧
    (select_words lines).Nodup ∧
    select_words ["Apple".toList, "banana!".toList, "apple".toList, "Cherry".toList] =
      ["Apple".toList, "apple".toList, "Cherry".toList] := by
  refine ⟨dedupe_eq_dropLater _, ?_, nodup_dedupeGo _ _, by decide⟩
  intro t
  rw [select_words, mem_dedupe, List.mem_map]
  constructor
  · rintro ⟨l, hl, rfl⟩
    rcases List.mem_filter.mp hl with ⟨hmem, htok⟩
    exact ⟨l, hmem, rfl, htok⟩
  · rintro ⟨l, hmem, rfl, htok⟩
    exact ⟨l, List.mem_filter.mpr ⟨hmem, htok⟩, rfl⟩

/-! ## Claims C5 and C10: card writer -/

theorem write_anki_fst (cards : List (String × String × String)) :
    (write_anki cards).1 =
      (if (cards.filter (fun e => e.2.2 == "b")).map toRow = [] then none
       else some ([["front", "back"]] ++ (cards.filter (fun e => e.2.2 == "b")).map toRow)) := rfl

theorem write_anki_snd (cards : List (String × String × String)) :
    (write_anki cards).2 =
      (if (cards.filter (fun e => e.2.2 == "br")).map toRow = [] then none
       else some ([["front", "back"]] ++ (cards.filter (fun e => e.2.2 == "br")).map toRow)) := rfl

/-- Claim C5 (confirmed): `write_anki` partitions entries by card type; a
non-empty group yields a file whose first row is the header and whose data
rows are exactly the group's `(front, back)` rows; an empty group yields no
file; every data row stems from an entry of the matching type, so skipped
entries are never written. -/
theorem C5_card_writer (cards : List (String × String × String)) :
    ((write_anki cards).1 = none ↔ cards.filter (fun e => e.2.2 == "b") = []) ∧
    ((write_anki cards).2 = none ↔ cards.filter (fun e => e.2.2 == "br") = []) ∧
    (∀ f, (write_anki cards).1 = some f →
      f = ["front", "back"] :: (cards.filter (fun e => e.2.2 == "b")).map toRow) ∧
    (∀ f, (write_anki cards).2 = some f →
      f = ["front", "back"] :: (cards.filter (fun e => e.2.2 == "br")).map toRow) ∧
    (∀ f, (write_anki cards).1 = some f → ∀ r ∈ f.tail,
      ∃ e ∈ cards, e.2.2 = "b" ∧ r = toRow e) ∧
    (∀ f, (write_anki cards).2 = some f → ∀ r ∈ f.tail,
      ∃ e ∈ cards, e.2.2 = "br" ∧ r = toRow e) := by
  have hgen : ∀ (ty : String) (fl : Option (List (List String))),
      fl = (if (cards.filter (fun e => e.2.2 == ty)).map toRow = [] then none
            else some ([["front", "back"]] ++ (cards.filter (fun e => e.2.2 == ty)).map toRow)) →
      (fl = none ↔ cards.filter (fun e => e.2.2 == ty) = []) ∧
      (∀ f, fl = some f → f = ["front", "back"] :: (cards.filter (fun e => e.2.2 == ty)).map toRow) ∧
      (∀ f, fl = some f → ∀ r ∈ f.tail, ∃ e ∈ cards, e.2.2 = ty ∧ r = toRow e) := by
    intro ty fl hfl
    subst hfl
    by_cases he : (cards.filter (fun e => e.2.2 == ty)).map toRow = []
    · rw [if_pos he]
      refine ⟨?_, ?_, ?_⟩
      · simp only [true_iff]
        exact List.map_eq_nil_iff.mp he
      · intro f hf
        exact absurd hf (by simp)
      · intro f hf
        exact absurd hf (by simp)
    · rw [if_neg he]
      refine ⟨?_, ?_, ?_⟩
      · constructor
        · intro h
          exact absurd h (by simp)
        · intro hnil
          exact absurd (by rw [hnil]; rfl) he
      · intro f hf
        have := Option.some.inj hf
        rw [← this]
        rfl
      · intro f hf r hr
        have hfeq := Option.some.inj hf
        rw [← hfeq] at hr
        simp only [List.singleton_append, List.tail_cons] at hr
        rcases List.mem_map.mp hr with ⟨e, hmem, hrow⟩
        rcases List.mem_filter.mp hmem with ⟨hec, hety⟩
        exact ⟨e, hec, by simpa using hety, hrow.symm⟩
  obtain ⟨h1, h2, h3⟩ := hgen "b" _ (write_anki_fst cards)
  obtain ⟨h4, h5, h6⟩ := hgen "br" _ (write_anki_snd cards)
  exact ⟨h1, h4, h2, h5, h3, h6⟩

/-- Claim C10 (confirmed): within each output file the data rows keep the
relative order of the corresponding input entries — the rows are the
order-preserving filter of the input, a sublist of the input's row images. -/
theorem C10_writer_order (cards : List (String × String × String)) :
    (∀ f, (write_anki cards).1 = some f →
      f.tail = (cards.filter (fun e => e.2.2 == "b")).map toRow ∧
      f.tail.Sublist (cards.map toRow)) ∧
    (∀ f, (write_anki cards).2 = some f →
      f.tail = (cards.filter (fun e => e.2.2 == "br")).map toRow ∧
      f.tail.Sublist (cards.map toRow)) := by
  have hgen : ∀ (ty : String) (fl : Option (List (List String))),
      fl = (if (cards.filter (fun e => e.2.2 == ty)).map toRow = [] then none
            else some ([["front", "back"]] ++ (cards.filter (fun e => e.2.2 == ty)).map toRow)) →
      ∀ f, fl = some f →
        f.tail = (cards.filter (fun e => e.2.2 == ty)).map toRow ∧
        f.tail.Sublist (cards.map toRow) := by
    intro ty fl hfl f hf
    subst hfl
    by_cases he : (cards.filter (fun e => e.2.2 == ty)).map toRow = []
    · rw [if_pos he] at hf
      exact absurd hf (by simp)
    · rw [if_neg he] at hf
      have hfeq := Option.some.inj hf
      rw [← hfeq]
      refine ⟨rfl, ?_⟩
      show ((cards.filter (fun e => e.2.2 == ty)).map toRow).Sublist (cards.map toRow)
      exact List.Sublist.map toRow (List.filter_sublist cards)
  exact ⟨hgen "b" _ (write_anki_fst cards), hgen "br" _ (write_anki_snd cards)⟩

/-! ## Claim C9: pre-generation mapping -/

theorem lookupA_map_pair (g : String → String) :
    ∀ (l : List String) (w : String),
      lookupA (l.map (fun x => (x, g x))) w = if w ∈ l then some (g w) else none
  | [], w => by simp [lookupA]
  | x :: xs, w => by
    rw [List.map_cons, lookupA]
    by_cases hxw : x = w
    · subst hxw
      simp
    · rw [if_neg hxw, lookupA_map_pair g xs w]
      by_cases hw : w ∈ xs
      · rw [if_pos hw, if_pos (List.mem_cons_of_mem _ hw)]
      · rw [if_neg hw, if_neg (fun hc => by
          rcases List.mem_cons.mp hc with h | h
          · exact hxw h.symm
          · exact hw h)]

theorem foldl_dinsert_fresh (g : String → String) :
    ∀ (l : List String) (m : List (String × String)),
      (∀ x ∈ l, ∀ p ∈ m, p.1 ≠ x) → l.Nodup →
      l.foldl (fun m w => dinsert m w (g w)) m = m ++ l.map (fun w => (w, g w))
  | [], m, _, _ => by simp
  | x :: xs, m, hfresh, hnd => by
    rw [List.foldl_cons]
    have hany : m.any (fun p => p.1 == x) = false := by
      rw [List.any_eq_false]
      intro p hp
      simpa using hfresh x (List.mem_cons_self x xs) p hp
    rw [dinsert, if_neg (by simp [hany])]
    rw [foldl_dinsert_fresh g xs (m ++ [(x, g x)]) ?_ (List.Nodup.of_cons hnd)]
    · simp
    · intro y hy p hp
      rcases List.mem_append.mp hp with h | h
      · exact hfresh y (List.mem_cons_of_mem _ hy) p h
      · have hpx : p = (x, g x) := by simpa using h
        subst hpx
        intro hc
        have hxy : x = y := hc
        exact (List.nodup_cons.mp hnd).1 (by rw [hxy]; exact hy)

theorem buildDefs_eq_map (g : String → String) (l : List String) (hnd : l.Nodup) :
    buildDefs g l = l.map (fun w => (w, g w)) := by
  rw [buildDefs, foldl_dinsert_fresh g l [] (by simp) hnd]
  simp

/-- Claim C9 (confirmed): for pairwise-distinct words, the pre-generation
mapping holds exactly one entry per word — length `N`, keys exactly the
processing order, lookups returning each word's generated definition — and
the resulting mapping (as a lookup function) does not depend on the order in
which per-word results complete. -/
theorem C9_pregen_mapping (g : String → String) (words order : List String)
    (hnd : words.Nodup) (hperm : order.Perm words) :
    (buildDefs g order).length = words.length ∧
    (buildDefs g order).map Prod.fst = order ∧
    (∀ w, lookupA (buildDefs g order) w = if w ∈ words then some (g w) else none) ∧
    pregen_definitions g words = words.map (fun w => (w, g w)) := by
  have hndo : order.Nodup := (List.Perm.nodup_iff hperm).mpr hnd
  have heq := buildDefs_eq_map g order hndo
  refine ⟨?_, ?_, ?_, buildDefs_eq_map g words hnd⟩
  · rw [heq, List.length_map]
    exact hperm.length_eq
  · rw [heq, List.map_map]
    exact List.map_id order
  · intro w
    rw [heq, lookupA_map_pair]
    by_cases hw : w ∈ words
    · rw [if_pos hw, if_pos (hperm.mem_iff.mpr hw)]
    · rw [if_neg hw, if_neg (fun hc => hw (hperm.mem_iff.mp hc))]

/-- Witness for C9 at a concrete input: two words completed in reversed
order still yield the two-entry mapping with the right lookups. -/
theorem C9_pregen_mapping_witness :
    lookupA (buildDefs (fun w => String.append w "!") ["b", "a"]) "a" = some "a!" := by
  have h := (C9_pregen_mapping (fun w => String.append w "!") ["a", "b"] ["b", "a"]
    (by decide) (by decide)).2.2.1 "a"
  simpa using h

/-! ## Claim C6: dictionary-lookup retry policy -/

theorem fetchAux_trace_len (oracle : Nat → FetchOutcome) :
    ∀ (fuel i : Nat), (fetchAux oracle fuel i).2.length ≤ fuel
  | 0, _ => Nat.le_refl 0
  | fuel + 1, i => by
    rw [fetchAux]
    cases oracle i with
    | exc =>
      dsimp only
      simpa using Nat.succ_le_succ (fetchAux_trace_len oracle fuel (i + 1))
    | resp st ds =>
      dsimp only
      by_cases h : st = 200 ∧ ds ≠ []
      · rw [if_pos h]
        simp
      · rw [if_neg h]
        simpa using Nat.succ_le_succ (fetchAux_trace_len oracle fuel (i + 1))

theorem fetchAux_sleep_iff_exc (oracle : Nat → FetchOutcome) :
    ∀ (fuel i : Nat), ∀ e ∈ (fetchAux oracle fuel i).2, (e.2 = 1 ↔ e.1 = FetchOutcome.exc)
  | 0, _ => by simp [fetchAux]
  | fuel + 1, i => by
    rw [fetchAux]
    cases horc : oracle i with
    | exc =>
      dsimp only
      intro e he
      rcases List.mem_cons.mp he with rfl | he
      · simp
      · exact fetchAux_sleep_iff_exc oracle fuel (i + 1) e he
    | resp st ds =>
      dsimp only
      by_cases h : st = 200 ∧ ds ≠ []
      · rw [if_pos h]
        intro e he
        have : e = (FetchOutcome.resp st ds, 0) := by simpa using he
        subst this
        simp
      · rw [if_neg h]
        intro e he
        rcases List.mem_cons.mp he with rfl | he
        · simp
        · exact fetchAux_sleep_iff_exc oracle fuel (i + 1) e he

theorem fetchAux_result_eq_firstSuccess (oracle : Nat → FetchOutcome) :
    ∀ (fuel i : Nat), (fetchAux oracle fuel i).1 = firstSuccess oracle fuel i
  | 0, _ => rfl
  | fuel + 1, i => by
    rw [fetchAux, firstSuccess]
    cases oracle i with
    | exc =>
      dsimp only
      exact fetchAux_result_eq_firstSuccess oracle fuel (i + 1)
    | resp st ds =>
      dsimp only
      by_cases h : st = 200 ∧ ds ≠ []
      · rw [if_pos h, if_pos h]
      · rw [if_neg h, if_neg h]
        exact fetchAux_result_eq_firstSuccess oracle fuel (i + 1)

theorem firstSuccess_of_all_failed (oracle : Nat → FetchOutcome) :
    ∀ (fuel i : Nat), (∀ j, i ≤ j → j < i + fuel → attemptFailedB (oracle j) = true) →
      firstSuccess oracle fuel i = []
  | 0, _, _ => rfl
  | fuel + 1, i, hall => by
    rw [firstSuccess]
    have hfail := hall i (Nat.le_refl i) (by omega)
    have hrest : ∀ j, i + 1 ≤ j → j < (i + 1) + fuel → attemptFailedB (oracle j) = true := by
      intro j h1 h2
      exact hall j (by omega) (by omega)
    cases horc : oracle i with
    | exc =>
      dsimp only
      exact firstSuccess_of_all_failed oracle fuel (i + 1) hrest
    | resp st ds =>
      dsimp only
      rw [horc] at hfail
      have hns : ¬(st = 200 ∧ ds ≠ []) := by
        intro ⟨h200, hne⟩
        rw [attemptFailedB] at hfail
        rcases of_decide_eq_true hfail with h | h
        · exact h h200
        · exact hne h
      rw [if_neg hns]
      exact firstSuccess_of_all_failed oracle fuel (i + 1) hrest

/-- Counterexample for C6: three attempts that all fail transiently with a
non-success status (500) are retried with no delay at all — the one-second
sleep sits only in the exception handler — contradicting the claimed
"one-second delay between attempts on transient failure (an exception or a
non-success status)". -/
theorem C6_retry_counterexample :
    fetch_definitions (fun _ => FetchOutcome.resp 500 []) 3 =
      ([], [(FetchOutcome.resp 500 [], 0), (FetchOutcome.resp 500 [], 0),
            (FetchOutcome.resp 500 [], 0)]) ∧
    transientB (FetchOutcome.resp 500 []) = true ∧
    delayOkB (fetch_definitions (fun _ => FetchOutcome.resp 500 []) 3).2 = false := by
  refine ⟨by decide, by decide, by decide⟩

/-- Claim C6 as amended: `fetch_definitions` attempts the lookup at most
`retries` times; a one-second delay follows exactly the attempts that raise
an exception (non-success statuses and empty parses retry without delay);
the result is the first successful (status 200, non-empty parse) attempt's
definition list; two transient failures followed by a success on the third
of three attempts return that non-empty list; when every attempt fails
(exception, non-success status, or zero parsed blocks) the result is the
empty list — and the function is total, so no error is raised. -/
theorem C6_retry_amended (oracle : Nat → FetchOutcome) (retries : Nat) :
    (fetch_definitions oracle retries).2.length ≤ retries ∧
    (∀ e ∈ (fetch_definitions oracle retries).2, (e.2 = 1 ↔ e.1 = FetchOutcome.exc)) ∧
    (fetch_definitions oracle retries).1 = firstSuccess oracle retries 0 ∧
    ((∀ j, j < retries → attemptFailedB (oracle j) = true) →
      (fetch_definitions oracle retries).1 = []) ∧
    (∀ ds, retries = 3 → attemptFailedB (oracle 0) = true → attemptFailedB (oracle 1) = true →
      oracle 2 = FetchOutcome.resp 200 ds → ds ≠ [] →
      (fetch_definitions oracle retries).1 = ds) := by
  have hfailed_step : ∀ (o : FetchOutcome) (fuel i : Nat), attemptFailedB o = true →
      oracle i = o → firstSuccess oracle (fuel + 1) i = firstSuccess oracle fuel (i + 1) := by
    intro o fuel i hfail horc
    rw [firstSuccess, horc]
    cases o with
    | exc => rfl
    | resp st ds =>
      dsimp only
      have hns : ¬(st = 200 ∧ ds ≠ []) := by
        intro ⟨h200, hne⟩
        rw [attemptFailedB] at hfail
        rcases of_decide_eq_true hfail with h | h
        · exact h h200
        · exact hne h
      rw [if_neg hns]
  refine ⟨fetchAux_trace_len oracle retries 0,
          fetchAux_sleep_iff_exc oracle retries 0,
          fetchAux_result_eq_firstSuccess oracle retries 0, ?_, ?_⟩
  · intro hall
    rw [fetch_definitions, fetchAux_result_eq_firstSuccess]
    exact firstSuccess_of_all_failed oracle retries 0 (fun j _ hj => hall j (by omega))
  · intro ds h3 hf0 hf1 horc2 hne
    subst h3
    rw [fetch_definitions, fetchAux_result_eq_firstSuccess]
    rw [hfailed_step (oracle 0) 2 0 hf0 rfl, hfailed_step (oracle 1) 1 1 hf1 rfl]
    rw [firstSuccess, horc2]
    dsimp only
    rw [if_pos ⟨rfl, hne⟩]

/-! ## Claim C7: console malformed-input handling -/

/-- Counterexample for C7: one word `"cat"`, a scraped definition, and the
malformed response `"x"` at the definition-choice prompt. The run prints
`"bad choice"` but then moves on: the prompt is issued exactly once (never
repeated), and `"cat"` ends in neither the cards nor the skipped list — the
word is silently dropped, contradicting both halves of the claim. The last
conjunct shows the card-type prompt: the malformed response `"maybe"` is
silently interpreted as a basic card. -/
theorem C7_console_counterexample :
    (runWords ⟨fun u => if u = "cat" then ["a feline"] else [], fun _ => "lld", fun _ _ => "lle"⟩
        [] (fun _ => "x") ["cat"] 0).1 = [] ∧
    (runWords ⟨fun u => if u = "cat" then ["a feline"] else [], fun _ => "lld", fun _ _ => "lle"⟩
        [] (fun _ => "x") ["cat"] 0).2.1 = [] ∧
    (runWords ⟨fun u => if u = "cat" then ["a feline"] else [], fun _ => "lld", fun _ _ => "lle"⟩
        [] (fun _ => "x") ["cat"] 0).2.2 =
      [CliEvent.printWord "cat", CliEvent.printDef 1 "a feline",
       CliEvent.promptDef "cat" "x", CliEvent.printMsg "bad choice"] ∧
    countDefPrompts "cat"
      (runWords ⟨fun u => if u = "cat" then ["a feline"] else [], fun _ => "lld", fun _ _ => "lle"⟩
        [] (fun _ => "x") ["cat"] 0).2.2 = 1 ∧
    (runWords ⟨fun u => if u = "cat" then ["a feline"] else [], fun _ => "lld", fun _ _ => "lle"⟩
        [] (fun k => if k = 0 then "1" else "maybe") ["cat"] 0).1 =
      [("cat", "a feline<br><br>lle", "b")] := by
  refine ⟨by decide, by decide, by decide, by decide, by decide⟩

/-- Claim C7 as amended: at the definition-choice prompt a malformed
response is rejected with the message `"bad choice"`, but the prompt is not
repeated — the iteration ends with the word neither turned into a card nor
recorded as skipped (it is dropped), and the loop proceeds to the next word;
at the card-type prompt any response other than `'n'` is accepted silently:
`'r'` yields a reversed card and every other response, malformed ones
included, yields a basic card. -/
theorem C7_console_amended (orc : CliOracles) (pregen : List (String × String))
    (inputs : Nat → String) (k : Nat) (w : String) (ws : List String) :
    (∀ defs choice,
      defs = (if (orc.fetch w).isEmpty then [orc.llmDef w] else orc.fetch w) →
      choice = trimS (lowerS (inputs k)) →
      choice ≠ "s" → choice ≠ "l" →
      ¬(isNatStrB choice = true ∧ 1 ≤ digitsToNat choice.toList ∧
        digitsToNat choice.toList ≤ defs.length) →
      processWord orc [] inputs k w =
        (none, none,
         CliEvent.printWord w ::
           (defs.enum.map (fun p => CliEvent.printDef (p.1 + 1) p.2) ++
            [CliEvent.promptDef w (inputs k), CliEvent.printMsg "bad choice"]), k + 1)) ∧
    (∀ defs choice,
      defs = (if (orc.fetch w).isEmpty then [orc.llmDef w] else orc.fetch w) →
      choice = trimS (lowerS (inputs k)) →
      choice ≠ "s" → choice ≠ "l" →
      ¬(isNatStrB choice = true ∧ 1 ≤ digitsToNat choice.toList ∧
        digitsToNat choice.toList ≤ defs.length) →
      (runWords orc [] inputs (w :: ws) k).1 = (runWords orc [] inputs ws (k + 1)).1 ∧
      (runWords orc [] inputs (w :: ws) k).2.1 = (runWords orc [] inputs ws (k + 1)).2.1) ∧
    (∀ d, pregen ≠ [] → lookupA pregen w = some d → lowerS (inputs k) ≠ "n" →
      processWord orc pregen inputs k w =
        (some (w, d ++ SEP ++ orc.llmEx w d, if lowerS (inputs k) = "r" then "br" else "b"),
         none,
         [CliEvent.printWord w, CliEvent.printExample (orc.llmEx w d),
          CliEvent.promptCard w (inputs k)], k + 1)) := by
  have hbad : ∀ defs choice,
      defs = (if (orc.fetch w).isEmpty then [orc.llmDef w] else orc.fetch w) →
      choice = trimS (lowerS (inputs k)) →
      choice ≠ "s" → choice ≠ "l" →
      ¬(isNatStrB choice = true ∧ 1 ≤ digitsToNat choice.toList ∧
        digitsToNat choice.toList ≤ defs.length) →
      processWord orc [] inputs k w =
        (none, none,
         CliEvent.printWord w ::
           (defs.enum.map (fun p => CliEvent.printDef (p.1 + 1) p.2) ++
            [CliEvent.promptDef w (inputs k), CliEvent.printMsg "bad choice"]), k + 1) := by
    intro defs choice hdefs hchoice hs hl hd
    subst hdefs
    subst hchoice
    rw [processWord]
    rw [if_neg (by simp)]
    rw [if_neg hs, if_neg hl, if_neg hd]
    simp [List.append_assoc]
  refine ⟨hbad, ?_, ?_⟩
  · intro defs choice hdefs hchoice hs hl hd
    have hstep := hbad defs choice hdefs hchoice hs hl hd
    rw [runWords, hstep]
    exact ⟨rfl, rfl⟩
  · intro d hne hlook hn
    rw [processWord]
    rw [if_pos (by
      have h1 : pregen.isEmpty = false := by simpa using hne
      rw [h1, hlook]
      rfl)]
    rw [hlook]
    rw [stepExample, if_neg hn]
    simp [Option.getD]

/-- Witness for C7 at a concrete input: the malformed response `"x"` yields
no card, no skip entry, one definition prompt and the `"bad choice"`
message. -/
theorem C7_console_amended_witness :
    processWord ⟨fun _ => ["a feline"], fun _ => "lld", fun _ _ => "lle"⟩ [] (fun _ => "x") 0 "cat" =
      (none, none,
       [CliEvent.printWord "cat", CliEvent.printDef 1 "a feline",
        CliEvent.promptDef "cat" "x", CliEvent.printMsg "bad choice"], 1) := by
  have h := (C7_console_amended ⟨fun _ => ["a feline"], fun _ => "lld", fun _ _ => "lle"⟩
      [] (fun _ => "x") 0 "cat" []).1 ["a feline"] "x" (by decide) (by decide)
      (by decide) (by decide) (by decide)
  simpa using h

/-! ## Claim C8: example sentence generator -/

theorem infixOfB_iff (n h : List Char) :
    infixOfB n h = true ↔ ∃ i, i ≤ h.length ∧ (h.drop i).take n.length = n := by
  rw [infixOfB, List.any_eq_true]
  constructor
  · rintro ⟨i, hmem, hp⟩
    exact ⟨i, Nat.lt_succ_iff.mp (List.mem_range.mp hmem), by simpa using hp⟩
  · rintro ⟨i, hle, heq⟩
    exact ⟨i, List.mem_range.mpr (Nat.lt_succ_of_le hle), by simpa using heq⟩

theorem infixOfB_mono (n a b c : List Char) (hb : infixOfB n b = true) :
    infixOfB n (a ++ b ++ c) = true := by
  obtain ⟨i, hi, heq⟩ := (infixOfB_iff n b).mp hb
  have hlen : n.length ≤ b.length - i := by
    have := congrArg List.length heq
    simp only [List.length_take, List.length_drop] at this
    omega
  apply (infixOfB_iff n (a ++ b ++ c)).mpr
  refine ⟨a.length + i, ?_, ?_⟩
  · simp only [List.length_append]
    omega
  · rw [List.append_assoc a b c, List.drop_append,
      List.drop_append_of_le_length hi,
      List.take_append_of_le_length (by simpa using hlen), heq]

/-- Counterexample for C8: the definition `"1. a fruit\n2. to pick"`
enumerates multiple senses, yet the instruction `gen_example` formats for it
contains no occurrence of `"; "` at all — so it cannot permit multiple
sentences separated by `"; "`, refuting the claimed "if and only if". The
prompt is a fixed template; it never inspects the definition's sense
structure. -/
theorem C8_example_gen_counterexample :
    enumMultiSenseB ("1. a fruit\n2. to pick".toList) = true ∧
    infixOfB ("; ".toList)
      (examplePromptL ("apple".toList) ("1. a fruit\n2. to pick".toList) []) = false := by
  refine ⟨by decide, by decide⟩

/-- Claim C8 as amended: `gen_example` formats the fixed instruction
template with word, definition and context substituted; the instruction
always requests exactly one example sentence (the fixed clause is present
for every input) and never contains a `"; "`-separated multi-sentence
permission of its own (no piece of the template contains `"; "`), whatever
the definition's sense structure; the trimmed completion text is returned
verbatim, with no post-validation. -/
theorem C8_example_gen_amended (llm : List Char → List Char) (w d : List Char)
    (ctx : Option (List Char)) :
    gen_example llm w d ctx = trimL (llm (examplePromptL w d (ctx.getD []))) ∧
    examplePromptL w d (ctx.getD []) = EX_A ++ w ++ EX_B ++ d ++ EX_C ++ (ctx.getD []) ∧
    infixOfB ("Write one natural, concise and simple example sentence".toList)
      (examplePromptL w d (ctx.getD [])) = true ∧
    infixOfB ("; ".toList) EX_A = false ∧
    infixOfB ("; ".toList) EX_B = false ∧
    infixOfB ("; ".toList) EX_C = false := by
  refine ⟨rfl, rfl, ?_, by decide, by decide, by decide⟩
  have hC : infixOfB ("Write one natural, concise and simple example sentence".toList)
      EX_C = true := by decide
  exact infixOfB_mono _ (EX_A ++ w ++ EX_B ++ d) EX_C (ctx.getD []) hC

/-! ## Claims C2 and C3: definition splitter -/

theorem getD_eq_getElem' {α : Type _} (l : List α) (d : α) {n : Nat} (h : n < l.length) :
    l.getD n d = l[n] := by
  rw [List.getD_eq_getElem?_getD, List.getElem?_eq_getElem h]
  rfl

theorem length_takeWhile_le' {α : Type _} (p : α → Bool) :
    ∀ (l : List α), (l.takeWhile p).length ≤ l.length
  | [] => Nat.le_refl 0
  | x :: xs => by
    rw [List.takeWhile_cons]
    by_cases h : p x = true
    · rw [if_pos h]
      simpa using length_takeWhile_le' p xs
    · rw [if_neg h]
      simp

theorem dropWhile_eq_drop' {α : Type _} (p : α → Bool) (l : List α) :
    l.dropWhile p = l.drop (l.takeWhile p).length := by
  have h := List.drop_left (l.takeWhile p) (l.dropWhile p)
  rw [List.takeWhile_append_dropWhile] at h
  exact h.symm

theorem take_length_takeWhile {α : Type _} (p : α → Bool) (l : List α) :
    l.take (l.takeWhile p).length = l.takeWhile p := by
  have h := List.take_left (l.takeWhile p) (l.dropWhile p)
  rw [List.takeWhile_append_dropWhile] at h
  exact h

theorem takeWhile_append_stop {α : Type _} (p : α → Bool) (y : α) (hy : p y = false) :
    ∀ (a b : List α), (∀ x ∈ a, p x = true) → (a ++ y :: b).takeWhile p = a
  | [], b, _ => by
    rw [List.nil_append, List.takeWhile_cons, if_neg (by rw [hy]; exact Bool.false_ne_true)]
  | x :: a, b, ha => by
    rw [List.cons_append, List.takeWhile_cons,
      if_pos (ha x (List.mem_cons_self x a)),
      takeWhile_append_stop p y hy a b (fun z hz => ha z (List.mem_cons_of_mem x hz))]

theorem markerLen_spec (s : List Char) (m : Nat) (h : markerLen s = some m) :
    1 ≤ m ∧ m ≤ s.length ∧ IsMarkerB (s.take m) = true := by
  rw [markerLen] at h
  by_cases he : (s.takeWhile isAsciiDigitB).isEmpty
  · rw [if_pos he] at h
    cases h
  · rw [if_neg he] at h
    by_cases hc : ((s.drop (s.takeWhile isAsciiDigitB).length).headD ' ' == '.') = true
    · rw [if_pos hc] at h
      have hm := Option.some.inj h
      set ds := s.takeWhile isAsciiDigitB with hds
      rcases hdrop : s.drop ds.length with _ | ⟨c, rest⟩
      · rw [hdrop] at hc
        exact absurd hc (by decide)
      · rw [hdrop] at hc
        have hcdot : c = '.' := by simpa using hc
        subst hcdot
        rw [hdrop] at hm
        simp only [List.drop_succ_cons, List.drop_zero] at hm
        set ws := rest.takeWhile isSpaceB with hws
        have hdecomp : s = ds ++ '.' :: rest := by
          conv_lhs => rw [← List.take_append_drop ds.length s]
          rw [hdrop, hds, take_length_takeWhile]
        have hwsle : ws.length ≤ rest.length := length_takeWhile_le' _ rest
        have hslen : s.length = ds.length + 1 + rest.length := by
          rw [hdecomp]
          simp only [List.length_append, List.length_cons]
          omega
        have hdsne : ds ≠ [] := by
          intro hnil
          apply he
          rw [hnil]
          rfl
        have hdsall : ∀ x ∈ ds, isAsciiDigitB x = true := by
          intro x hx
          rw [hds] at hx
          exact List.all_eq_true.mp List.all_takeWhile x hx
        have hwsall : ∀ x ∈ ws, isSpaceB x = true := by
          intro x hx
          rw [hws] at hx
          exact List.all_eq_true.mp List.all_takeWhile x hx
        refine ⟨by omega, by omega, ?_⟩
        have htakem : s.take m = ds ++ '.' :: ws := by
          rw [hdecomp, ← hm]
          have harith : ds.length + 1 + ws.length = ds.length + (ws.length + 1) := by omega
          rw [harith, List.take_append]
          congr 1
          rw [List.take_succ_cons]
          congr 1
          rw [hws, take_length_takeWhile]
        rw [htakem, IsMarkerB]
        have htw : (ds ++ '.' :: ws).takeWhile isAsciiDigitB = ds :=
          takeWhile_append_stop isAsciiDigitB '.' (by decide) ds ws hdsall
        rw [htw]
        have h1 : ds.isEmpty = false := by
          rcases hd : ds with _ | ⟨a, as⟩
          · exact absurd hd hdsne
          · rfl
        have h2 : (ds ++ '.' :: ws).drop ds.length = '.' :: ws := List.drop_left ds ('.' :: ws)
        have h3 : (ds ++ '.' :: ws).drop (ds.length + 1) = ws := by
          rw [List.drop_append 1]
          rfl
        rw [h1, h2, h3]
        simp only [Bool.not_false, List.headD_cons, Bool.true_and]
        rw [Bool.and_eq_true]
        refine ⟨by decide, List.all_eq_true.mpr hwsall⟩
    · rw [if_neg hc] at h
      cases h

theorem splitAux_join :
    ∀ (fuel : Nat) (s : List Char) (b : Bool) (acc : List Char), s.length ≤ fuel →
      ∃ ms, joinMP (splitAux fuel s b acc) ms = acc.reverse ++ s ∧
        ∀ m ∈ ms, IsMarkerB m = true
  | fuel, [], b, acc, _ => by
    refine ⟨[], ?_, by simp⟩
    cases fuel <;> simp [splitAux, joinMP]
  | 0, c :: cs, _, _, hlen => by simp at hlen
  | fuel + 1, c :: cs, b, acc, hlen => by
    have hlen' : cs.length ≤ fuel := by simpa using hlen
    cases b with
    | false =>
      rw [splitAux]
      have hif : (false = true) = False := by simp
      rw [if_neg (by simp)]
      obtain ⟨ms, hj, hall⟩ := splitAux_join fuel cs (c == '\n') (c :: acc) hlen'
      refine ⟨ms, ?_, hall⟩
      rw [hj, List.reverse_cons, List.append_assoc]
      rfl
    | true =>
      rw [splitAux, if_pos rfl]
      rcases hml : markerLen (c :: cs) with _ | m
      · obtain ⟨ms, hj, hall⟩ := splitAux_join fuel cs (c == '\n') (c :: acc) hlen'
        refine ⟨ms, ?_, hall⟩
        rw [hj, List.reverse_cons, List.append_assoc]
        rfl
      · obtain ⟨h1m, hmle, hmark⟩ := markerLen_spec (c :: cs) m hml
        have hdlen : ((c :: cs).drop m).length ≤ fuel := by
          rw [List.length_drop]
          simp only [List.length_cons]
          omega
        obtain ⟨ms, hj, hall⟩ :=
          splitAux_join fuel ((c :: cs).drop m) (((c :: cs).take m).getLastD ' ' == '\n') [] hdlen
        simp only [List.reverse_nil, List.nil_append] at hj
        refine ⟨(c :: cs).take m :: ms, ?_, ?_⟩
        · have hjoin : joinMP
              (acc.reverse :: splitAux fuel ((c :: cs).drop m)
                (((c :: cs).take m).getLastD ' ' == '\n') [])
              ((c :: cs).take m :: ms) =
              acc.reverse ++ ((c :: cs).take m ++
                joinMP (splitAux fuel ((c :: cs).drop m)
                  (((c :: cs).take m).getLastD ' ' == '\n') []) ms) := rfl
          rw [hjoin, hj, List.take_append_drop]
        · intro x hx
          rcases List.mem_cons.mp hx with rfl | hx
          · exact hmark
          · exact hall x hx

theorem splitAux_noMarkers :
    ∀ (fuel : Nat) (s : List Char) (b : Bool) (acc : List Char), s.length ≤ fuel →
      (b = true → markerLen s = none) →
      (∀ i, 0 < i → s.getD (i - 1) ' ' = '\n' → markerLen (s.drop i) = none) →
      splitAux fuel s b acc = [acc.reverse ++ s]
  | fuel, [], b, acc, _, _, _ => by
    cases fuel <;> simp [splitAux]
  | 0, c :: cs, _, _, hlen, _, _ => by simp at hlen
  | fuel + 1, c :: cs, b, acc, hlen, h1, h2 => by
    have hlen' : cs.length ≤ fuel := by simpa using hlen
    have hcs1 : (c == '\n') = true → markerLen cs = none := by
      intro hc
      have hgd : (c :: cs).getD (1 - 1) ' ' = '\n' := by
        simpa using (by simpa using hc : c = '\n')
      simpa using h2 1 (by omega) hgd
    have hcs2 : ∀ i, 0 < i → cs.getD (i - 1) ' ' = '\n' → markerLen (cs.drop i) = none := by
      intro i hi hgd
      obtain ⟨j, rfl⟩ : ∃ j, i = j + 1 := ⟨i - 1, by omega⟩
      have hgd' : (c :: cs).getD ((j + 1 + 1) - 1) ' ' = '\n' := by simpa using hgd
      simpa using h2 (j + 1 + 1) (by omega) hgd'
    have hrec := splitAux_noMarkers fuel cs (c == '\n') (c :: acc) hlen' hcs1 hcs2
    cases b with
    | false =>
      rw [splitAux, if_neg (by simp), hrec, List.reverse_cons, List.append_assoc]
      rfl
    | true =>
      rw [splitAux, if_pos rfl, h1 rfl, hrec, List.reverse_cons, List.append_assoc]
      rfl

theorem noMarkersB_markerLen (d : List Char) (h : noMarkersB d = true) :
    markerLen d = none := by
  have h0 := List.all_eq_true.mp h 0 (List.mem_range.mpr (by omega))
  rw [markerAtB] at h0
  simp only [beq_self_eq_true, Bool.true_or, Bool.true_and, Bool.not_eq_eq_eq_not,
    Bool.not_true] at h0
  rcases hml : markerLen (d.drop 0) with _ | m
  · simpa using hml
  · rw [hml] at h0
    cases h0

theorem noMarkersB_drop (d : List Char) (h : noMarkersB d = true) :
    ∀ i, 0 < i → d.getD (i - 1) ' ' = '\n' → markerLen (d.drop i) = none := by
  intro i hi hgd
  by_cases hle : i ≤ d.length
  · have hall := List.all_eq_true.mp h i (List.mem_range.mpr (by omega))
    rw [markerAtB] at hall
    have hguard : (i == 0 || d.getD (i - 1) ' ' == '\n') = true := by
      rw [hgd]
      simp
    rw [hguard] at hall
    simp only [Bool.true_and, Bool.not_eq_eq_eq_not, Bool.not_true] at hall
    rcases hml : markerLen (d.drop i) with _ | m
    · rfl
    · rw [hml] at hall
      cases hall
  · rw [List.drop_eq_nil_of_le (by omega)]
    rfl

theorem splitMarkers_of_noMarkers (d : List Char) (h : noMarkersB d = true) :
    splitMarkers d = [d] := by
  rw [splitMarkers]
  have hres := splitAux_noMarkers d.length d true [] (Nat.le_refl _)
    (fun _ => noMarkersB_markerLen d h) (noMarkersB_drop d h)
  simpa using hres

theorem parse_definitions_of_noMarkers (d w : List Char) (h : noMarkersB d = true) :
    parse_definitions d w = [(w, d)] := by
  rw [parse_definitions, splitMarkers_of_noMarkers d h]
  have hlen := List.length_filter_le (fun s : List Char => !s.isEmpty) ([d].map trimL)
  simp only [List.length_map, List.length_cons, List.length_nil] at hlen
  rw [if_neg (by omega)]

theorem enumMap_getD {β : Type _} (l : List (List Char)) (f : Nat × List Char → β)
    (dflt : β) (k : Nat) (hk : k < l.length) :
    (l.enum.map f).getD k dflt = f (k, l.getD k []) := by
  have h1 : k < (l.enum.map f).length := by
    rw [List.length_map, List.enum_length]
    exact hk
  rw [getD_eq_getElem' _ _ h1, List.getElem_map, List.getElem_enum, getD_eq_getElem' _ _ hk]

/-- Counterexample for C2: `"1.a: x\n2.b: y"` contains no marker in the
claim's strict sense (no whitespace follows either period), so the claim
requires the single unchanged pair; but the regex `\d+\.\s*` accepts zero
whitespace characters, and the code splits the text into two sense pairs
(also trimming the post-colon text: `": x"` becomes `"x"`). -/
theorem C2_splitter_counterexample :
    noStrictMarkersB ("1.a: x\n2.b: y".toList) = true ∧
    parse_definitions ("1.a: x\n2.b: y".toList) ("w".toList) =
      [("w (a)".toList, "x".toList), ("w (b)".toList, "y".toList)] ∧
    parse_definitions ("1.a: x\n2.b: y".toList) ("w".toList) ≠
      [("w".toList, "1.a: x\n2.b: y".toList)] := by
  refine ⟨by decide, by decide, by decide⟩

/-- Claim C2 as amended: the splitter divides the text at line-leading
markers of the form digits, a period, and optional (possibly empty)
whitespace — the text re-assembles from the returned pieces with exactly
such markers between them, and a text without any such line-leading marker
is never split; with more than one non-empty stripped segment, one pair per
segment is produced in order: a segment with a colon yields the word with
the pre-colon text (stripped of parentheses and spaces) as parenthesised
label and the trimmed post-colon text as definition, a segment without a
colon yields the label `sense i` (1-based); with at most one segment the
single pair `(word, definition_text)` is returned with the text unchanged. -/
theorem C2_splitter_amended (d w : List Char) :
    (∃ ms, joinMP (splitMarkers d) ms = d ∧ ∀ m ∈ ms, IsMarkerB m = true) ∧
    (noMarkersB d = true → parse_definitions d w = [(w, d)]) ∧
    ((((splitMarkers d).map trimL).filter (fun s => !s.isEmpty)).length ≤ 1 →
      parse_definitions d w = [(w, d)]) ∧
    (1 < (((splitMarkers d).map trimL).filter (fun s => !s.isEmpty)).length →
      (parse_definitions d w).length =
        (((splitMarkers d).map trimL).filter (fun s => !s.isEmpty)).length ∧
      ∀ k, k < (((splitMarkers d).map trimL).filter (fun s => !s.isEmpty)).length →
        (parse_definitions d w).getD k ([], []) =
          (if ((((splitMarkers d).map trimL).filter (fun s => !s.isEmpty)).getD k []).contains ':' then
            (w ++ (" (".toList) ++
              stripParenSpace
                (((((splitMarkers d).map trimL).filter (fun s => !s.isEmpty)).getD k []).takeWhile
                  (fun c => c != ':')) ++ [')'],
             trimL (((((splitMarkers d).map trimL).filter (fun s => !s.isEmpty)).getD k []).drop
                (((((splitMarkers d).map trimL).filter (fun s => !s.isEmpty)).getD k []).takeWhile
                  (fun c => c != ':')).length.succ))
          else
            (w ++ (" (sense ".toList) ++ Nat.toDigits 10 (k + 1) ++ [')'],
             trimL ((((splitMarkers d).map trimL).filter (fun s => !s.isEmpty)).getD k [])))) := by
  refine ⟨?_, parse_definitions_of_noMarkers d w, ?_, ?_⟩
  · obtain ⟨ms, hj, hall⟩ := splitAux_join d.length d true [] (Nat.le_refl _)
    exact ⟨ms, by simpa using hj, hall⟩
  · intro hle
    rw [parse_definitions]
    rw [if_neg (by omega)]
  · intro hgt
    constructor
    · rw [parse_definitions, if_pos hgt, List.length_map, List.enum_length]
    · intro k hk
      rw [parse_definitions, if_pos hgt]
      rw [enumMap_getD _ _ _ k hk]

/-- Witness for C2 at a concrete input: a marker-free text is returned as
the single unchanged pair. -/
theorem C2_splitter_amended_witness :
    parse_definitions ("no markers here".toList) ("dog".toList) =
      [("dog".toList, "no markers here".toList)] :=
  (C2_splitter_amended ("no markers here".toList) ("dog".toList)).2.1 (by decide)

/-- Counterexample for C3: on the spec's worked example the two segments
`"(noun) a fruit"` and `"(verb) to pick"` contain no colon, so the code
labels them `"sense 1"` and `"sense 2"` and keeps the parenthesised parts of
speech inside the definitions — not the claimed
`[("apple (noun)", "a fruit"), ("apple (verb)", "to pick")]`. -/
theorem C3_example_counterexample :
    parse_definitions ("1. (noun) a fruit\n2. (verb) to pick".toList) ("apple".toList) ≠
      [("apple (noun)".toList, "a fruit".toList),
       ("apple (verb)".toList, "to pick".toList)] := by decide

/-- Claim C3 as amended: on `"1. (noun) a fruit\n2. (verb) to pick"` with
word `"apple"` the splitter returns
`[("apple (sense 1)", "(noun) a fruit"), ("apple (sense 2)", "(verb) to pick")]`
(the colon rule does not fire, the segments having no colon); and any text
containing no line-leading numeric marker yields exactly `[(word, text)]`. -/
theorem C3_example_amended :
    parse_definitions ("1. (noun) a fruit\n2. (verb) to pick".toList) ("apple".toList) =
      [("apple (sense 1)".toList, "(noun) a fruit".toList),
       ("apple (sense 2)".toList, "(verb) to pick".toList)] ∧
    ∀ d w : List Char, noMarkersB d = true → parse_definitions d w = [(w, d)] :=
  ⟨by decide, fun d w h => parse_definitions_of_noMarkers d w h⟩

/-- Witness for C3 at a concrete input: a plain text with no numeric
markers is returned unchanged. -/
theorem C3_example_amended_witness :
    parse_definitions ("plain text".toList) ("cat".toList) =
      [("cat".toList, "plain text".toList)] :=
  C3_example_amended.2 ("plain text".toList) ("cat".toList) (by decide)

/-! ## Claim C1: context extractor -/

theorem alpha_ranges {c : Char} (h : isAsciiAlphaB c = true) :
    (65 ≤ c.toNat ∧ c.toNat ≤ 90) ∨ (97 ≤ c.toNat ∧ c.toNat ≤ 122) := by
  rw [isAsciiAlphaB] at h
  exact of_decide_eq_true h

theorem ciCharEq_alpha {c d : Char} (h : ciCharEq c d = true) (hd : isAsciiAlphaB d = true) :
    isAsciiAlphaB c = true := by
  rw [ciCharEq] at h
  rcases Bool.or_eq_true _ _ |>.mp h with h1 | h2
  · have : c = d := by simpa using h1
    rw [this]
    exact hd
  · exact (Bool.and_eq_true _ _ |>.mp (Bool.and_eq_true _ _ |>.mp h2).1).1

theorem alpha_not_space {c : Char} (h : isAsciiAlphaB c = true) : isSpaceB c = false := by
  have h' := alpha_ranges h
  rw [isSpaceB]
  simp only [decide_eq_false_iff_not]
  intro hsp
  rcases h' with ⟨a, b⟩ | ⟨a, b⟩ <;>
    rcases hsp with hx | hx | hx | hx | hx | hx <;> omega

theorem alpha_replNl_id {c : Char} (h : isAsciiAlphaB c = true) :
    (if c == '\n' then ' ' else c) = c := by
  have h' := alpha_ranges h
  by_cases hc : (c == '\n') = true
  · have hceq : c = '\n' := by simpa using hc
    subst hceq
    have : ('\n' : Char).toNat = 10 := by decide
    rcases h' with ⟨a, b⟩ | ⟨a, b⟩ <;> omega
  · rw [if_neg hc]

theorem nonword_replNl {c : Char} (h : wordCharB c = false) :
    wordCharB (if c == '\n' then ' ' else c) = false := by
  by_cases hc : (c == '\n') = true
  · rw [if_pos hc]
    decide
  · rw [if_neg hc]
    exact h

theorem getD_drop'' {α : Type _} :
    ∀ (p : Nat) (s : List α) (k : Nat) (d : α), (s.drop p).getD k d = s.getD (p + k) d
  | 0, s, k, d => by rw [List.drop_zero, Nat.zero_add]
  | p + 1, [], k, d => by simp
  | p + 1, c :: cs, k, d => by
    rw [List.drop_succ_cons, getD_drop'' p cs k d,
      show p + 1 + k = (p + k) + 1 by omega, List.getD_cons_succ]

theorem getD_take_lt {α : Type _} :
    ∀ (n : Nat) (s : List α) (k : Nat) (d : α), k < n → (s.take n).getD k d = s.getD k d
  | 0, _, k, _, h => absurd h (by omega)
  | n + 1, [], k, d, _ => by simp
  | n + 1, c :: cs, 0, d, _ => by rw [List.take_succ_cons, List.getD_cons_zero, List.getD_cons_zero]
  | n + 1, c :: cs, k + 1, d, h => by
    rw [List.take_succ_cons, List.getD_cons_succ, List.getD_cons_succ]
    exact getD_take_lt n cs k d (by omega)

theorem getD_map_space (f : Char → Char) (hf : f ' ' = ' ') :
    ∀ (s : List Char) (k : Nat), (s.map f).getD k ' ' = f (s.getD k ' ')
  | [], k => hf.symm
  | c :: cs, 0 => by rw [List.map_cons, List.getD_cons_zero, List.getD_cons_zero]
  | c :: cs, k + 1 => by
    rw [List.map_cons, List.getD_cons_succ, List.getD_cons_succ]
    exact getD_map_space f hf cs k

theorem getD_mem {α : Type _} :
    ∀ (l : List α) (k : Nat) (d : α), k < l.length → l.getD k d ∈ l
  | [], _, _, h => absurd h (by simp)
  | c :: cs, 0, d, _ => by
    rw [List.getD_cons_zero]
    exact List.mem_cons_self c cs
  | c :: cs, k + 1, d, h => by
    rw [List.getD_cons_succ]
    exact List.mem_cons_of_mem c (getD_mem cs k d (by simpa using h))

theorem ciEqL_length : ∀ (a b : List Char), ciEqL a b = true → a.length = b.length
  | [], [], _ => rfl
  | [], _ :: _, h => by simp [ciEqL] at h
  | _ :: _, [], h => by simp [ciEqL] at h
  | c :: cs, d :: ds, h => by
    rw [ciEqL, Bool.and_eq_true] at h
    rw [List.length_cons, List.length_cons, ciEqL_length cs ds h.2]

theorem ciEqL_alpha : ∀ (a b : List Char), ciEqL a b = true →
    (∀ x ∈ b, isAsciiAlphaB x = true) → ∀ x ∈ a, isAsciiAlphaB x = true
  | [], _, _, _ => by simp
  | _ :: _, [], h, _ => by simp [ciEqL] at h
  | c :: cs, d :: ds, h, hb => by
    rw [ciEqL, Bool.and_eq_true] at h
    intro x hx
    rcases List.mem_cons.mp hx with rfl | hx
    · exact ciCharEq_alpha h.1 (hb d (List.mem_cons_self d ds))
    · exact ciEqL_alpha cs ds h.2 (fun y hy => hb y (List.mem_cons_of_mem d hy)) x hx

theorem MatchAt_len_le {s w : List Char} {i : Nat} (h : MatchAt s w i) (hw : w ≠ []) :
    i + w.length ≤ s.length := by
  have hl := ciEqL_length _ _ h.1
  rw [List.length_take, List.length_drop] at hl
  have hwp : 0 < w.length := List.length_pos.mpr hw
  omega

theorem MatchAt_drop {s w : List Char} {i : Nat} (p : Nat) (hp : p ≤ i) (h : MatchAt s w i) :
    MatchAt (s.drop p) w (i - p) := by
  obtain ⟨h1, h2, h3⟩ := h
  refine ⟨?_, ?_, ?_⟩
  · have hdd : (s.drop p).drop (i - p) = s.drop i := by
      rw [List.drop_drop, show p + (i - p) = i by omega]
    rw [hdd]
    exact h1
  · by_cases hz : i - p = 0
    · exact Or.inl hz
    · refine Or.inr ?_
      rw [getD_drop'', show p + (i - p - 1) = i - 1 by omega]
      rcases h2 with h2 | h2
      · omega
      · exact h2
  · rw [List.length_drop, getD_drop'', show p + (i - p + w.length) = i + w.length by omega]
    rcases h3 with h3 | h3
    · exact Or.inl (by omega)
    · exact Or.inr h3

theorem getD_of_le_length {α : Type _} :
    ∀ (l : List α) (k : Nat) (d : α), l.length ≤ k → l.getD k d = d
  | [], _, _, _ => List.getD_nil
  | c :: cs, 0, d, h => by simp at h
  | c :: cs, k + 1, d, h => by
    rw [List.getD_cons_succ]
    exact getD_of_le_length cs k d (by simpa using h)

theorem MatchAt_take {s w : List Char} {i : Nat} (n : Nat) (hn : i + w.length ≤ n)
    (h : MatchAt s w i) : MatchAt (s.take n) w i := by
  obtain ⟨h1, h2, h3⟩ := h
  refine ⟨?_, ?_, ?_⟩
  · have hmid : ((s.take n).drop i).take w.length = (s.drop i).take w.length := by
      rw [List.drop_take, List.take_take]
      congr 1
      omega
    rw [hmid]
    exact h1
  · rcases h2 with h2 | h2
    · exact Or.inl h2
    · by_cases hi : i = 0
      · exact Or.inl hi
      · exact Or.inr (by rw [getD_take_lt _ _ _ _ (by omega)]; exact h2)
  · rcases h3 with h3 | h3
    · exact Or.inl (by rw [List.length_take]; omega)
    · by_cases hlt : i + w.length < min n s.length
      · refine Or.inr ?_
        rw [getD_take_lt _ _ _ _ (by omega)]
        exact h3
      · by_cases heq : i + w.length = min n s.length
        · exact Or.inl (by rw [List.length_take]; exact heq)
        · refine Or.inr ?_
          rw [getD_of_le_length _ _ _ (by rw [List.length_take]; omega)]
          decide

theorem MatchAt_replNl {s w : List Char} {i : Nat} (hα : ∀ c ∈ w, isAsciiAlphaB c = true)
    (h : MatchAt s w i) : MatchAt (replNl s) w i := by
  obtain ⟨h1, h2, h3⟩ := h
  have hmid : ((replNl s).drop i).take w.length = (s.drop i).take w.length := by
    rw [replNl, ← List.map_drop, ← List.map_take]
    have hall : ∀ c ∈ (s.drop i).take w.length, (if c == '\n' then ' ' else c) = c := by
      intro c hc
      exact alpha_replNl_id (ciEqL_alpha _ _ h1 hα c hc)
    calc ((s.drop i).take w.length).map (fun c => if c == '\n' then ' ' else c)
        = ((s.drop i).take w.length).map id := List.map_congr_left hall
      _ = (s.drop i).take w.length := List.map_id _
  refine ⟨?_, ?_, ?_⟩
  · rw [hmid]
    exact h1
  · rcases h2 with h2 | h2
    · exact Or.inl h2
    · refine Or.inr ?_
      rw [replNl, getD_map_space _ (by decide)]
      exact nonword_replNl h2
  · have hlen : (replNl s).length = s.length := by rw [replNl, List.length_map]
    rcases h3 with h3 | h3
    · exact Or.inl (by rw [hlen]; exact h3)
    · refine Or.inr ?_
      rw [replNl, getD_map_space _ (by decide)]
      exact nonword_replNl h3

theorem MatchAt_ends_alpha {s w : List Char} {i : Nat} (h : MatchAt s w i) (hw : w ≠ [])
    (hα : ∀ c ∈ w, isAsciiAlphaB c = true) :
    isAsciiAlphaB (s.getD i ' ') = true ∧
    isAsciiAlphaB (s.getD (i + w.length - 1) ' ') = true := by
  have hwp : 0 < w.length := List.length_pos.mpr hw
  have hlen := ciEqL_length _ _ h.1
  rw [List.length_take, List.length_drop] at hlen
  have hmida : ∀ x ∈ (s.drop i).take w.length, isAsciiAlphaB x = true :=
    ciEqL_alpha _ _ h.1 hα
  constructor
  · have hg : ((s.drop i).take w.length).getD 0 ' ' = s.getD i ' ' := by
      rw [getD_take_lt _ _ _ _ (by omega), getD_drop'', Nat.add_zero]
    rw [← hg]
    exact hmida _ (getD_mem _ _ _ (by rw [List.length_take, List.length_drop]; omega))
  · have hg : ((s.drop i).take w.length).getD (w.length - 1) ' ' =
        s.getD (i + w.length - 1) ' ' := by
      rw [getD_take_lt _ _ _ _ (by omega), getD_drop'',
        show i + (w.length - 1) = i + w.length - 1 by omega]
    rw [← hg]
    exact hmida _ (getD_mem _ _ _ (by rw [List.length_take, List.length_drop]; omega))

theorem takeWhile_length_le_of_false {α : Type _} (p : α → Bool) :
    ∀ (l : List α) (j : Nat) (d : α), j < l.length → p (l.getD j d) = false →
      (l.takeWhile p).length ≤ j
  | [], j, d, hj, _ => by simp at hj
  | c :: cs, 0, d, _, hp => by
    rw [List.getD_cons_zero] at hp
    rw [List.takeWhile_cons, if_neg (by rw [hp]; exact Bool.false_ne_true)]
    exact Nat.le_refl 0
  | c :: cs, j + 1, d, hj, hp => by
    rw [List.getD_cons_succ] at hp
    rw [List.takeWhile_cons]
    by_cases hc : p c = true
    · rw [if_pos hc, List.length_cons]
      exact Nat.succ_le_succ (takeWhile_length_le_of_false p cs j d (by simpa using hj) hp)
    · rw [if_neg hc]
      exact Nat.zero_le _

theorem trimL_eq_drop_take (s : List Char) :
    trimL s = (s.drop (s.takeWhile isSpaceB).length).take
      ((s.drop (s.takeWhile isSpaceB).length).length -
        ((s.drop (s.takeWhile isSpaceB).length).reverse.takeWhile isSpaceB).length) := by
  rw [trimL, dropWhile_eq_drop' isSpaceB s]
  set t := s.drop (s.takeWhile isSpaceB).length
  rw [dropWhile_eq_drop' isSpaceB t.reverse, List.drop_reverse, List.reverse_reverse]

theorem getD_reverse (t : List Char) (k : Nat) (d : Char) (hk : k < t.length) :
    t.reverse.getD k d = t.getD (t.length - 1 - k) d := by
  have hk' : k < t.reverse.length := by rw [List.length_reverse]; exact hk
  rw [getD_eq_getElem' _ _ hk', List.getElem_reverse,
    getD_eq_getElem' _ _ (show t.length - 1 - k < t.length by omega)]

theorem MatchAt_trimL {s w : List Char} {i : Nat} (hw : w ≠ [])
    (hα : ∀ c ∈ w, isAsciiAlphaB c = true) (h : MatchAt s w i) :
    MatchAt (trimL s) w (i - (s.takeWhile isSpaceB).length) := by
  have hwp : 0 < w.length := List.length_pos.mpr hw
  obtain ⟨hfirst, _⟩ := MatchAt_ends_alpha h hw hα
  have hile := MatchAt_len_le h hw
  have hpi : (s.takeWhile isSpaceB).length ≤ i :=
    takeWhile_length_le_of_false isSpaceB s i ' ' (by omega) (alpha_not_space hfirst)
  have ht : MatchAt (s.drop (s.takeWhile isSpaceB).length) w
      (i - (s.takeWhile isSpaceB).length) := MatchAt_drop _ hpi h
  set p := (s.takeWhile isSpaceB).length with hpdef
  set t := s.drop p with htdef
  obtain ⟨_, htlast⟩ := MatchAt_ends_alpha ht hw hα
  have htlen : (i - p) + w.length ≤ t.length := MatchAt_len_le ht hw
  set q := (t.reverse.takeWhile isSpaceB).length with hqdef
  have hrev : t.reverse.getD (t.length - ((i - p) + w.length)) ' ' =
      t.getD ((i - p) + w.length - 1) ' ' := by
    rw [getD_reverse t _ ' ' (by omega)]
    congr 1
    omega
  have hqbound : q ≤ t.length - ((i - p) + w.length) := by
    apply takeWhile_length_le_of_false isSpaceB t.reverse _ ' '
      (by rw [List.length_reverse]; omega)
    rw [hrev]
    exact alpha_not_space htlast
  rw [trimL_eq_drop_take]
  exact MatchAt_take (t.length - q) (by omega) ht

theorem containsWholeWordCI_of_MatchAt {s' w : List Char} {j : Nat} (hw : w ≠ [])
    (hm : MatchAt s' w j) : containsWholeWordCI s' w = true := by
  rw [containsWholeWordCI, List.any_eq_true]
  have hle := MatchAt_len_le hm hw
  exact ⟨j, List.mem_range.mpr (by omega), decide_eq_true hm⟩

theorem snippet_contains (text w : List Char) (span i : Nat) (hw : w ≠ [])
    (hα : ∀ c ∈ w, isAsciiAlphaB c = true) (hm : MatchAt text w i) :
    containsWholeWordCI (snippetAt text w span i) w = true := by
  rw [snippetAt, sliceClip]
  have h1 : MatchAt (text.drop (i - span)) w (i - (i - span)) :=
    MatchAt_drop (i - span) (by omega) hm
  have h2 : MatchAt ((text.drop (i - span)).take (i + w.length + span - (i - span))) w
      (i - (i - span)) := MatchAt_take _ (by omega) h1
  have h3 := MatchAt_replNl hα h2
  have h4 := MatchAt_trimL hw hα h3
  exact containsWholeWordCI_of_MatchAt hw h4

/-- Claim C1 (confirmed): `find_contexts` returns the snippets of the
case-insensitive whole-word matches in document order, at most `maxCtx` of
them; each snippet is the slice from `span` characters before the match to
`span` characters after it, clipped to the text, newlines replaced by
spaces, and trimmed; each snippet still contains a case-insensitive
whole-word match of the word; an empty text or a text without matches
yields the empty sequence (and the function is total, so no error is
raised). -/
theorem C1_context_extractor (text w : List Char) (span maxCtx : Nat)
    (hw : w ≠ []) (hα : w.all isAsciiAlphaB = true) :
    find_contexts text w span maxCtx =
      ((matchPositions text w).take maxCtx).map (snippetAt text w span) ∧
    (find_contexts text w span maxCtx).length ≤ maxCtx ∧
    List.Pairwise (· < ·) (matchPositions text w) ∧
    (∀ sn ∈ find_contexts text w span maxCtx, containsWholeWordCI sn w = true) ∧
    (matchPositions text w = [] → find_contexts text w span maxCtx = []) ∧
    (text = [] → find_contexts text w span maxCtx = []) := by
  have hα' : ∀ c ∈ w, isAsciiAlphaB c = true := List.all_eq_true.mp hα
  refine ⟨rfl, ?_, ?_, ?_, ?_, ?_⟩
  · rw [find_contexts, List.length_map]
    exact List.length_take_le _ _
  · exact List.Pairwise.filter _ (List.pairwise_lt_range _)
  · intro sn hsn
    rw [find_contexts] at hsn
    rcases List.mem_map.mp hsn with ⟨i, hi, rfl⟩
    have hi' : i ∈ matchPositions text w := List.mem_of_mem_take hi
    have hm : MatchAt text w i := of_decide_eq_true (List.mem_filter.mp hi').2
    exact snippet_contains text w span i hw hα' hm
  · intro h0
    rw [find_contexts, h0, List.take_nil, List.map_nil]
  · intro htext
    subst htext
    have hpos : matchPositions [] w = [] := by
      rw [matchPositions]
      apply List.filter_eq_nil_iff.mpr
      intro a _
      simp only [decide_eq_true_eq]
      intro hma
      have hlen := ciEqL_length _ _ hma.1
      simp only [List.drop_nil, List.take_nil, List.length_nil] at hlen
      exact hw (List.length_eq_zero.mp hlen.symm)
    rw [find_contexts, hpos, List.take_nil, List.map_nil]

/-- Witness for C1 at a concrete input: the word `"cat"` in
`"The cat sat on the mat."` with radius 3 and cap 5. -/
theorem C1_context_extractor_witness :
    ("cat".toList ≠ [] ∧ "cat".toList.all isAsciiAlphaB = true) ∧
    (find_contexts ("The cat sat on the mat.".toList) ("cat".toList) 3 5).length ≤ 5 ∧
    (∀ sn ∈ find_contexts ("The cat sat on the mat.".toList) ("cat".toList) 3 5,
      containsWholeWordCI sn ("cat".toList) = true) :=
  ⟨⟨by decide, by decide⟩,
   (C1_context_extractor ("The cat sat on the mat.".toList) ("cat".toList) 3 5
     (by decide) (by decide)).2.1,
   (C1_context_extractor ("The cat sat on the mat.".toList) ("cat".toList) 3 5
     (by decide) (by decide)).2.2.2.1⟩

end AnkiExtractor
